import Mathlib

/-!
Verification of the deduplication and multi-sink persistence core of the
NEWS-READER-ELITE repository, as a shallow embedding in Lean.

The embedding models:
- `normalize_title`, `get_all_existing_articles`, `get_db_existing_articles`
  and `deduplicate_articles` from `news_api_settings.py`;
- `insert_articles_simple`, `save_articles_to_json_simple` and
  `save_articles_simple` from `news_postgres_utils.py`, together with
  `save_articles_to_mongo` from `news_mongo_utils.py`;
- `remove_duplicates` from `news_rss_collector.py`;
- `start_auto_api` / `api_auto_status` from `app/main.py`.

External state (files on disk, the PostgreSQL table, the MongoDB collection,
thread liveness) is passed explicitly as values; character classes of Python's
`re` module (`\w`, `\s`) and `str.lower`/`str.strip` are modelled over their
ASCII fragment.
-/

set_option maxHeartbeats 1000000

namespace News

/-- ASCII fragment of Python's regex class `\s` (also the default class
stripped by `str.strip`): space, tab, newline, carriage return, vertical
tab, form feed. -/
def pyIsSpace (c : Char) : Bool :=
  c = ' ' || c = '\t' || c = '\n' || c = '\r' || c = '\x0b' || c = '\x0c'

/-- ASCII fragment of Python's regex class `\w`: alphanumeric or underscore. -/
def pyIsWord (c : Char) : Bool :=
  c.isAlphanum || c = '_'

/-- A character surviving `re.sub(r'[^\w\s]', '', s)`. -/
def keepChar (c : Char) : Bool :=
  pyIsWord c || pyIsSpace c

/-- Worker for `collapseWS`.  The flag records whether the previous input
character was whitespace (i.e. we are inside a whitespace run that has
already emitted its single replacement space). -/
def collapseAux : Bool → List Char → List Char
  | _, [] => []
  | inRun, c :: rest =>
    if pyIsSpace c then
      if inRun then collapseAux true rest
      else ' ' :: collapseAux true rest
    else c :: collapseAux false rest

/-- Model of `re.sub(r'\s+', ' ', s)`: each maximal whitespace run is
replaced by a single space. -/
def collapseWS (l : List Char) : List Char :=
  collapseAux false l

/-- Drop leading whitespace. -/
def stripLeft (l : List Char) : List Char :=
  l.dropWhile pyIsSpace

/-- Drop trailing whitespace. -/
def stripRight (l : List Char) : List Char :=
  (l.reverse.dropWhile pyIsSpace).reverse

/-- Model of Python's `str.strip()`. -/
def stripWS (l : List Char) : List Char :=
  stripRight (stripLeft l)

/-- Core of `normalize_title` on character lists, following the source:
`if not title: return ""`, then lower-case, then remove characters outside
`\w` and `\s`, then collapse whitespace runs, then strip. -/
def normCore (l : List Char) : List Char :=
  if l = [] then []
  else stripWS (collapseWS (List.filter keepChar (l.map Char.toLower)))

/-- Embedding of `normalize_title` from `news_api_settings.py`. -/
def normalize_title (s : String) : String :=
  ⟨normCore s.data⟩

/-- Worker for `splitWords`; `acc` holds the current word, reversed. -/
def splitWordsAux : List Char → List Char → List (List Char)
  | [], acc => if acc = [] then [] else [acc.reverse]
  | c :: l, acc =>
    if pyIsSpace c then
      if acc = [] then splitWordsAux l []
      else acc.reverse :: splitWordsAux l []
    else splitWordsAux l (c :: acc)

/-- The maximal whitespace-free words of a character list, in order. -/
def splitWords (l : List Char) : List (List Char) :=
  splitWordsAux l []

/-- Interleave a single space between words. -/
def joinSp : List (List Char) → List Char
  | [] => []
  | [w] => w
  | w :: x :: ws => w ++ ' ' :: joinSp (x :: ws)

/-- The claimed algorithm, in the spec's words: lower-case the input, remove
every character that is not alphanumeric or whitespace, collapse each run of
whitespace to a single space, and trim — the last two steps expressed as
joining the whitespace-separated words with single spaces. -/
def normalize_title_claimed (s : String) : String :=
  ⟨joinSp (splitWords (List.filter (fun c => c.isAlphanum || pyIsSpace c)
    (s.data.map Char.toLower)))⟩

/-- The amended algorithm: identical to `normalize_title_claimed` except that
the underscore is also retained, matching Python's `\w` class. -/
def normalize_title_amended (s : String) : String :=
  ⟨joinSp (splitWords (List.filter keepChar (s.data.map Char.toLower)))⟩

/-- The unified article record produced by the provider mappers
(`_transform_article` in `news_api_settings.py`).  String-valued fields that
Python may hold as `None` are modelled as (possibly empty) strings. -/
structure Article where
  title : String := ""
  description : String := ""
  url : String := ""
  image_url : String := ""
  published_at : String := ""
  source_name : String := ""
  source_url : String := ""
  language : String := ""
  full_content : String := ""
  authors : List String := []
  tickers : List String := []
  topics : List String := []
deriving DecidableEq, Repr

/-- Observable state of one flat-file JSON cache as `get_all_existing_articles`
sees it: absent, present but unparseable, or a parsed article array. -/
inductive FileRead where
  | missing : FileRead
  | corrupt : FileRead
  | good : List Article → FileRead
deriving DecidableEq, Repr

/-- Python exception value (by class name). -/
abbrev PyExn := String

/-- One iteration of the file loop in `get_all_existing_articles`, with its
possible exception made explicit: a missing file is skipped by the
`os.path.exists` guard, an unparseable file raises `json.JSONDecodeError`
inside the `try`, and a parsed array contributes the normalized titles of its
truthy titles and its truthy URLs. -/
def fileKeys : FileRead → Except PyExn (List String × List String)
  | .missing => .ok ([], [])
  | .corrupt => .error "JSONDecodeError"
  | .good arts =>
      .ok (arts.filterMap (fun a => if a.title ≠ "" then some (normalize_title a.title) else none),
           arts.filterMap (fun a => if a.url ≠ "" then some a.url else none))

/-- Embedding of `get_all_existing_articles`: fold over the cache files,
the per-file `try/except` turning a failed read into an empty contribution
while later files are still consulted. -/
def get_all_existing_articles (fs : List FileRead) : List String × List String :=
  fs.foldl
    (fun acc f =>
      match fileKeys f with
      | .ok (ts, us) => (acc.1 ++ ts, acc.2 ++ us)
      | .error _ => acc)
    ([], [])

/-- Observable state of the PostgreSQL connection used by
`get_db_existing_articles` (via `news_db_utils.get_db_connection`): the
connection attempt fails (`None` is returned), the `SELECT` raises, or the
query yields the `(title, url)` rows of the `articles` table. -/
inductive DbConn where
  | down : DbConn
  | queryFails : DbConn
  | up : List (String × String) → DbConn
deriving DecidableEq, Repr

/-- Embedding of `get_db_existing_articles`: an unreachable database or a
failing query contributes empty key sets; otherwise truthy titles are
normalized and truthy URLs collected. -/
def get_db_existing_articles : DbConn → List String × List String
  | .down => ([], [])
  | .queryFails => ([], [])
  | .up rows =>
      (rows.filterMap (fun r => if r.1 ≠ "" then some (normalize_title r.1) else none),
       rows.filterMap (fun r => if r.2 ≠ "" then some r.2 else none))

/-- The Existing-Key Index as assembled at the top of `deduplicate_articles`:
file keys unioned with database keys (membership-only use makes list
concatenation a faithful model of `set.update`). -/
def load_existing_keys (fs : List FileRead) (db : DbConn) : List String × List String :=
  let fk := get_all_existing_articles fs
  let dk := get_db_existing_articles db
  (fk.1 ++ dk.1, fk.2 ++ dk.2)

/-- The candidate loop of `deduplicate_articles`: an article is a duplicate if
its URL or its normalized title occurs in the existing keys or among the keys
seen earlier in the batch; otherwise it is kept and its keys recorded. -/
def dedupGo (exT exU : List String) :
    List Article → List String → List String → List Article × Nat
  | [], _, _ => ([], 0)
  | a :: rest, seenT, seenU =>
    let nt := normalize_title a.title
    let isDup := exU.contains a.url || seenU.contains a.url
      || exT.contains nt || seenT.contains nt
    if isDup then
      let r := dedupGo exT exU rest seenT seenU
      (r.1, r.2 + 1)
    else
      let r := dedupGo exT exU rest (nt :: seenT) (a.url :: seenU)
      (a :: r.1, r.2)

/-- Embedding of `deduplicate_articles` from `news_api_settings.py`,
parameterized by the cache-file and database state it reads. -/
def deduplicate_articles (fs : List FileRead) (db : DbConn) (articles : List Article) :
    List Article × Nat :=
  let keys := load_existing_keys fs db
  dedupGo keys.1 keys.2 articles [] []

/-- An RSS feed item as consumed by `remove_duplicates` in
`news_rss_collector.py` (`payload` stands for the remaining fields of the
item dictionary). -/
structure RssItem where
  title : String := ""
  link : String := ""
  payload : String := ""
deriving DecidableEq, Repr

/-- The guard `if title and link:` of `remove_duplicates`, on the stripped
title and link. -/
def rssGuard (it : RssItem) : Bool :=
  (⟨stripWS it.title.data⟩ : String) ≠ "" && (⟨stripWS it.link.data⟩ : String) ≠ ""

/-- The dictionary key `f"{title}|{link}"` of `remove_duplicates`, built from
the stripped title and link. -/
def rssKey (it : RssItem) : String :=
  (⟨stripWS it.title.data⟩ : String) ++ "|" ++ (⟨stripWS it.link.data⟩ : String)

/-- The loop of `remove_duplicates`: `seen` models the insertion-ordered
`unique` dictionary as a key-item association list. -/
def removeDupGo : List RssItem → List (String × RssItem) → Nat → List RssItem × Nat
  | [], seen, d => (seen.map Prod.snd, d)
  | it :: rest, seen, d =>
    if rssGuard it then
      if (seen.map Prod.fst).contains (rssKey it) then removeDupGo rest seen (d + 1)
      else removeDupGo rest (seen ++ [(rssKey it, it)]) d
    else removeDupGo rest seen d

/-- Embedding of `remove_duplicates` from `news_rss_collector.py`: items are
keyed by `stripped-title|stripped-link`, items with an empty stripped title or
link are skipped without being counted, and the kept items are returned in
insertion order together with the duplicate count. -/
def remove_duplicates (items : List RssItem) : List RssItem × Nat :=
  removeDupGo items [] 0

/-- Observable state of the PostgreSQL side of `news_postgres_utils.py`:
`psycopg.connect` fails and `get_db_connection` returns `None`; the cursor
raises `psycopg.Error` during the inserts (caught, rolled back); or the
`articles` table is available, represented by its list of stored URLs (the
column carrying the `UNIQUE` constraint). -/
inductive PgState where
  | unreachable : PgState
  | failing : List String → PgState
  | ok : List String → PgState
deriving DecidableEq, Repr

/-- The insert loop of `insert_articles_simple`: `INSERT ... ON CONFLICT (url)
DO NOTHING RETURNING id` returns a row exactly when the URL was not present,
in which case the article is counted and appended. -/
def pgInsertFold (table : List String) :
    List Article → Nat × List Article × List String
  | [] => (0, [], table)
  | a :: rest =>
    if table.contains a.url then pgInsertFold table rest
    else
      let r := pgInsertFold (table ++ [a.url]) rest
      (r.1 + 1, a :: r.2.1, r.2.2)

/-- Embedding of `insert_articles_simple` from `news_postgres_utils.py`.
An empty batch returns before the connection is opened.  Otherwise the code
executes `with get_db_connection() as conn:`; when the connection attempt
failed this applies the context-manager protocol to `None` and raises
(the `if not conn` guard sits inside the `with` block and is never reached),
which we surface as an `Except.error`.  A `psycopg.Error` during the inserts
is caught and yields `(0, [])` after rollback. -/
def insert_articles_simple (pg : PgState) (articles : List Article) :
    Except PyExn ((Nat × List Article) × PgState) :=
  match articles, pg with
  | [], _ => .ok ((0, []), pg)
  | _ :: _, .unreachable => .error "TypeError: NoneType is not a context manager"
  | _ :: _, .failing t => .ok ((0, []), .failing t)
  | arts, .ok t =>
      let r := pgInsertFold t arts
      .ok ((r.1, r.2.1), .ok r.2.2)

/-- Observable state of one flat-file cache for
`save_articles_to_json_simple`: whether the read-modify-write succeeds
(an unreadable or corrupt existing file already reads as `[]` upstream of the
write, so `content` is the parsed existing array), and the array currently
stored. -/
structure CacheFile where
  writeOk : Bool
  content : List Article
deriving DecidableEq, Repr

/-- Embedding of `save_articles_to_json_simple` from `news_postgres_utils.py`:
an empty batch writes nothing; otherwise the batch is appended to the existing
array with no deduplication and the count of the batch is returned, while any
I/O failure is caught and reported as a zero count. -/
def save_articles_to_json_simple (cache : CacheFile) (articles : List Article) :
    Nat × CacheFile :=
  match articles with
  | [] => (0, cache)
  | arts =>
    if cache.writeOk then (arts.length, ⟨true, cache.content ++ arts⟩)
    else (0, cache)

/-- Observable state of the MongoDB mirror for `save_articles_to_mongo`:
either the server selection fails (`get_mongo_client` returns `None`) or the
`articles` collection is available, represented as a URL-keyed association
list of documents. -/
inductive MongoState where
  | unreachable : MongoState
  | ok : List (String × Article) → MongoState
deriving DecidableEq, Repr

/-- One `UpdateOne({url: ...}, {$set: article}, upsert=True)` of the bulk
write: no match inserts the document (counted in `upserted_count`); a match
rewrites it, counted in `modified_count` only when the stored document
actually changes. -/
def mongoUpsertOne (store : List (String × Article)) (a : Article) :
    (Nat × Nat) × List (String × Article) :=
  match store.lookup a.url with
  | none => ((1, 0), store ++ [(a.url, a)])
  | some old =>
    if old = a then ((0, 0), store)
    else ((0, 1), store.map (fun p => if p.1 = a.url then (p.1, a) else p))

/-- The bulk write of `save_articles_to_mongo`, folding `mongoUpsertOne` and
summing the upserted and modified counters. -/
def mongoBulk (store : List (String × Article)) :
    List Article → (Nat × Nat) × List (String × Article)
  | [] => ((0, 0), store)
  | a :: rest =>
    let r1 := mongoUpsertOne store a
    let r2 := mongoBulk r1.2 rest
    ((r1.1.1 + r2.1.1, r1.1.2 + r2.1.2), r2.2)

/-- Embedding of `save_articles_to_mongo` from `news_mongo_utils.py`: an empty
batch or an unreachable server yields zero; otherwise the batch is bulk
upserted and `upserted_count + modified_count` is returned. -/
def save_articles_to_mongo (mongo : MongoState) (articles : List Article) :
    Nat × MongoState :=
  match articles, mongo with
  | [], _ => (0, mongo)
  | _ :: _, .unreachable => (0, .unreachable)
  | arts, .ok store =>
    let r := mongoBulk store arts
    (r.1.1 + r.1.2, .ok r.2)

/-- The aggregate result of `save_articles_simple`. -/
structure SaveResult where
  db_count : Nat
  json_count : Nat
  mongo_count : Nat
  new_articles : List Article
deriving DecidableEq, Repr

/-- Embedding of `save_articles_simple` from `news_postgres_utils.py`: the
three sinks are written in sequence — PostgreSQL insert, JSON cache append,
MongoDB upsert — with no exception handling of its own, so an exception
escaping `insert_articles_simple` propagates and the two remaining sinks are
never attempted. -/
def save_articles_simple (pg : PgState) (cache : CacheFile) (mongo : MongoState)
    (articles : List Article) :
    Except PyExn (SaveResult × PgState × CacheFile × MongoState) :=
  match articles with
  | [] => .ok (⟨0, 0, 0, []⟩, pg, cache, mongo)
  | arts => do
    let dbr ← insert_articles_simple pg arts
    let jr := save_articles_to_json_simple cache arts
    let mr := save_articles_to_mongo mongo arts
    .ok (⟨dbr.1.1, jr.1, mr.1, dbr.1.2⟩, dbr.2, jr.2, mr.2)

/-- The scheduler globals of `app/main.py` that the start/status handlers
read and write.  A thread object is modelled by its liveness
(`auto_api_thread = None` is `none`). -/
structure SchedState where
  apiThread : Option Bool := none
  rssThread : Option Bool := none
  apiStopSet : Bool := false
  rssStopSet : Bool := false
  apiNew : Nat := 0
  rssNew : Nat := 0
  apiErr : Bool := false
  rssErr : Bool := false
deriving DecidableEq, Repr

/-- The module-level initial state of `app/main.py`. -/
def initialSched : SchedState := {}

/-- Embedding of `start_auto_api`: a live thread makes the call return
`False` untouched; otherwise the stop event is cleared and a fresh live
thread is started. -/
def start_auto_api (s : SchedState) : Bool × SchedState :=
  if s.apiThread.getD false then (false, s)
  else (true, { s with apiStopSet := false, apiThread := some true })

/-- A Python value as serialized into the status-endpoint JSON response. -/
inductive PyVal where
  | pynone : PyVal
  | pybool : Bool → PyVal
  | pynat : Nat → PyVal
deriving DecidableEq, Repr

/-- Python's `thread and thread.is_alive()`: `None` short-circuits to `None`
itself, a thread object yields the boolean liveness. -/
def runningVal : Option Bool → PyVal
  | none => .pynone
  | some alive => .pybool alive

/-- Embedding of the `api_auto_status` handler of `app/main.py`: the JSON
object it returns, as an ordered key-value list.  The two historical totals
are computed from the cache files on disk and passed in here as `apiTotal` and
`rssTotal`. -/
def api_auto_status (s : SchedState) (apiTotal rssTotal : Nat) :
    List (String × PyVal) :=
  [("api_running", runningVal s.apiThread),
   ("rss_running", runningVal s.rssThread),
   ("api_new", .pynat s.apiNew),
   ("rss_new", .pynat s.rssNew),
   ("api_total", .pynat apiTotal),
   ("rss_total", .pynat rssTotal),
   ("api_error_occurred", .pybool s.apiErr),
   ("rss_error_occurred", .pybool s.rssErr)]

/-- Both persist calls of the C4 scenario, starting from empty reachable
stores: the results of the two calls and the final sink states, or `none` if
either call raised. -/
def persistTwice (a : Article) :
    Option (SaveResult × SaveResult × PgState × CacheFile × MongoState) :=
  match save_articles_simple (.ok []) ⟨true, []⟩ (.ok []) [a] with
  | .error _ => none
  | .ok (r1, pg, c, m) =>
    match save_articles_simple pg c m [a] with
    | .error _ => none
    | .ok (r2, pg2, c2, m2) => some (r1, r2, pg2, c2, m2)

/-- The four cache files of `get_all_existing_articles`, all absent: the
state of a fresh checkout. -/
def freshFiles : List FileRead := [.missing, .missing, .missing, .missing]

/-- Concrete article used in scenarios: first of the C2 batch. -/
def exFedA : Article := { title := "Fed Cuts Rates", url := "http://a" }

/-- Concrete article used in scenarios: second of the C2 batch. -/
def exFedB : Article := { title := "Fed cuts RATES!!", url := "http://a" }

/-- Concrete empty-title article `{url:"http://x", title:""}`. -/
def exEmptyX : Article := { title := "", url := "http://x" }

/-- Concrete empty-title article `{url:"http://y", title:""}`. -/
def exEmptyY : Article := { title := "", url := "http://y" }

/-- Concrete RSS item with an empty title and a non-empty link. -/
def exRssNoTitle : RssItem := { title := "", link := "http://l", payload := "x" }

/- ------------------------------------------------------------------ -/
/- Lemmas about the whitespace machinery of `normalize_title`.         -/
/- ------------------------------------------------------------------ -/

theorem dropWhile_length_le (p : Char → Bool) (l : List Char) :
    (l.dropWhile p).length ≤ l.length := by
  induction l with
  | nil => simp
  | cons c t ih =>
    rw [List.dropWhile_cons]
    split
    · exact Nat.le_trans ih (Nat.le_succ _)
    · simp

theorem dropWhile_eq_self_of (p : Char → Bool) (l : List Char)
    (h : ∀ c ∈ l, p c = false) : l.dropWhile p = l := by
  cases l with
  | nil => rfl
  | cons c t => exact List.dropWhile_cons_of_neg (by simp [h c (by simp)])

theorem collapseAux_true_eq (l : List Char) :
    collapseAux true l = collapseAux false (l.dropWhile pyIsSpace) := by
  induction l with
  | nil => rfl
  | cons c t ih =>
    by_cases hc : pyIsSpace c = true
    · rw [List.dropWhile_cons_of_pos hc]
      rw [show collapseAux true (c :: t) = collapseAux true t by
        simp [collapseAux, hc]]
      exact ih
    · rw [List.dropWhile_cons_of_neg (by simp [hc])]
      simp [collapseAux, hc]

theorem collapseAux_word (w rest : List Char)
    (h : ∀ c ∈ w, pyIsSpace c = false) :
    collapseAux false (w ++ rest) = w ++ collapseAux false rest := by
  induction w with
  | nil => rfl
  | cons c t ih =>
    have hc : pyIsSpace c = false := h c (by simp)
    simp [collapseAux, hc, ih (fun d hd => h d (by simp [hd]))]

theorem splitWords_cons_space {c : Char} (l : List Char) (hc : pyIsSpace c = true) :
    splitWords (c :: l) = splitWords l := by
  simp [splitWords, splitWordsAux, hc]

theorem splitWordsAux_acc (l : List Char) :
    ∀ acc : List Char, acc ≠ [] →
      splitWordsAux l acc =
        (acc.reverse ++ l.takeWhile (fun d => !pyIsSpace d)) ::
          splitWords (l.dropWhile (fun d => !pyIsSpace d)) := by
  induction l with
  | nil => intro acc hacc; simp [splitWordsAux, hacc, splitWords]
  | cons c t ih =>
    intro acc hacc
    by_cases hc : pyIsSpace c = true
    · rw [List.takeWhile_cons, List.dropWhile_cons]
      simp only [hc, Bool.not_true, if_neg (by simp : ¬ (false = true))]
      simp [splitWordsAux, hc, hacc, splitWords_cons_space _ hc, splitWords]
    · have hc' : pyIsSpace c = false := by simpa using hc
      rw [List.takeWhile_cons, List.dropWhile_cons]
      simp only [hc', Bool.not_false, if_pos rfl]
      simp only [splitWordsAux, hc']
      rw [if_neg (by simp : ¬ (false = true))]
      rw [ih (c :: acc) (by simp)]
      simp

theorem splitWords_cons_nonspace {c : Char} (l : List Char)
    (hc : pyIsSpace c = false) :
    splitWords (c :: l) =
      (c :: l.takeWhile (fun d => !pyIsSpace d)) ::
        splitWords (l.dropWhile (fun d => !pyIsSpace d)) := by
  show splitWordsAux (c :: l) [] = _
  simp only [splitWordsAux, hc]
  rw [splitWordsAux_acc l [c] (by simp)]
  simp

theorem splitWords_dropWhile (l : List Char) :
    splitWords (l.dropWhile pyIsSpace) = splitWords l := by
  induction l with
  | nil => rfl
  | cons c t ih =>
    by_cases hc : pyIsSpace c = true
    · rw [List.dropWhile_cons_of_pos hc, ih, splitWords_cons_space _ hc]
    · rw [List.dropWhile_cons_of_neg (by simp [hc])]

theorem stripRight_append (w y : List Char)
    (h : ∀ c ∈ w, pyIsSpace c = false) :
    stripRight (w ++ y) = w ++ stripRight y := by
  unfold stripRight
  rw [List.reverse_append, List.dropWhile_append]
  by_cases he : (y.reverse.dropWhile pyIsSpace).isEmpty = true
  · rw [if_pos he]
    have hy : y.reverse.dropWhile pyIsSpace = [] := by
      simpa [List.isEmpty_iff] using he
    rw [dropWhile_eq_self_of _ _ (fun c hc => h c (by simpa using hc))]
    simp [hy]
  · rw [if_neg he]
    simp

theorem stripRight_cons_of_ne (a : Char) (y : List Char)
    (h : stripRight y ≠ []) :
    stripRight (a :: y) = a :: stripRight y := by
  have h' : ¬ (y.reverse.dropWhile pyIsSpace).isEmpty = true := by
    simp only [List.isEmpty_iff]
    intro hy
    exact h (by simp [stripRight, hy])
  show ((a :: y).reverse.dropWhile pyIsSpace).reverse = _
  rw [show (a :: y).reverse = y.reverse ++ [a] by simp,
    List.dropWhile_append, if_neg h']
  simp [stripRight]

theorem stripWS_cons_space (x : List Char) : stripWS (' ' :: x) = stripWS x := by
  simp [stripWS, stripLeft, List.dropWhile_cons_of_pos (by decide : pyIsSpace ' ' = true)]

theorem stripWS_word (w x : List Char) (hw : w ≠ [])
    (h : ∀ c ∈ w, pyIsSpace c = false) :
    stripWS (w ++ x) = w ++ stripRight x := by
  unfold stripWS
  have hl : stripLeft (w ++ x) = w ++ x := by
    cases w with
    | nil => exact absurd rfl hw
    | cons c t =>
      simp only [stripLeft, List.cons_append]
      exact List.dropWhile_cons_of_neg (by simp [h c (by simp)])
  rw [hl, stripRight_append w x h]

theorem dropWhile_head_not (p : Char → Bool) (l : List Char) :
    ∀ d r', l.dropWhile p = d :: r' → p d = false := by
  induction l with
  | nil => intro d r' h; simp at h
  | cons c t ih =>
    intro d r' h
    rw [List.dropWhile_cons] at h
    by_cases hc : p c = true
    · exact ih d r' (by simpa [hc] using h)
    · have hc' : p c = false := by simpa using hc
      rw [if_neg (by simp [hc'])] at h
      cases h
      exact hc'

theorem stripWS_collapse_fuel :
    ∀ (n : Nat) (l : List Char), l.length ≤ n →
      stripWS (collapseWS l) = joinSp (splitWords l) := by
  intro n
  induction n with
  | zero =>
    intro l hl
    have : l = [] := by cases l with
      | nil => rfl
      | cons c t => simp at hl
    subst this; rfl
  | succ n ih =>
    intro l hl
    cases l with
    | nil => rfl
    | cons c t =>
      have hlen : t.length ≤ n := by simpa using hl
      by_cases hc : pyIsSpace c = true
      · have h1 : collapseWS (c :: t) =
            ' ' :: collapseAux false (t.dropWhile pyIsSpace) := by
          simp [collapseWS, collapseAux, hc, collapseAux_true_eq]
        rw [h1, stripWS_cons_space]
        have ihm := ih (t.dropWhile pyIsSpace)
          (Nat.le_trans (dropWhile_length_le _ _) hlen)
        rw [show collapseAux false (t.dropWhile pyIsSpace) =
            collapseWS (t.dropWhile pyIsSpace) from rfl, ihm,
          splitWords_dropWhile, splitWords_cons_space _ hc]
      · have hc' : pyIsSpace c = false := by simpa using hc
        have htw : ∀ d ∈ t.takeWhile (fun d => !pyIsSpace d), pyIsSpace d = false := by
          intro d hd
          have := List.mem_takeWhile_imp hd
          simpa using this
        have hw : ∀ d ∈ c :: t.takeWhile (fun d => !pyIsSpace d), pyIsSpace d = false := by
          intro d hd
          rcases List.mem_cons.mp hd with h | h
          · exact h ▸ hc'
          · exact htw d h
        have h1 : collapseWS (c :: t) =
            (c :: t.takeWhile (fun d => !pyIsSpace d)) ++
              collapseAux false (t.dropWhile (fun d => !pyIsSpace d)) := by
          have hsplit :
              collapseAux false t =
                t.takeWhile (fun d => !pyIsSpace d) ++
                  collapseAux false (t.dropWhile (fun d => !pyIsSpace d)) := by
            conv_lhs => rw [show t = t.takeWhile (fun d => !pyIsSpace d) ++
              t.dropWhile (fun d => !pyIsSpace d) from
              (List.takeWhile_append_dropWhile _ _).symm]
            exact collapseAux_word _ _ htw
          simp [collapseWS, collapseAux, hc', hsplit]
        rw [h1, splitWords_cons_nonspace _ hc',
          stripWS_word _ _ (by simp) hw]
        cases hr : t.dropWhile (fun d => !pyIsSpace d) with
        | nil => simp [hr, joinSp, stripRight, collapseAux, splitWords]
        | cons d r' =>
          have hd : pyIsSpace d = true := by
            have := dropWhile_head_not (fun d => !pyIsSpace d) t d r' hr
            simpa using this
          have h2 : collapseAux false (d :: r') =
              ' ' :: collapseAux false (r'.dropWhile pyIsSpace) := by
            simp [collapseAux, hd, collapseAux_true_eq]
          rw [h2]
          have hrlen : r'.length ≤ n := by
            have h3 : (d :: r').length ≤ t.length := hr ▸ dropWhile_length_le _ t
            have : r'.length < t.length := by simpa using h3
            omega
          have ihm := ih (r'.dropWhile pyIsSpace)
            (Nat.le_trans (dropWhile_length_le _ _) hrlen)
          rw [splitWords_cons_space _ hd, ← splitWords_dropWhile r']
          cases hm : r'.dropWhile pyIsSpace with
          | nil =>
            simp [hm, joinSp, stripRight, collapseAux, splitWords,
              show pyIsSpace ' ' = true from by decide]
          | cons e m'' =>
            have he : pyIsSpace e = false :=
              dropWhile_head_not pyIsSpace r' e m'' hm
            have h4 : collapseAux false (e :: m'') =
                e :: collapseAux false m'' := by
              simp [collapseAux, he]
            have h5 : stripRight (' ' :: collapseAux false (e :: m'')) =
                ' ' :: stripRight (collapseAux false (e :: m'')) := by
              apply stripRight_cons_of_ne
              rw [h4, show e :: collapseAux false m'' = [e] ++ collapseAux false m'' from rfl,
                stripRight_append [e] _ (by simpa using he)]
              simp
            rw [hm] at ihm
            have h6 : stripWS (collapseWS (e :: m'')) =
                stripRight (collapseAux false (e :: m'')) := by
              show stripWS (collapseAux false (e :: m'')) = _
              rw [h4, show e :: collapseAux false m'' = [e] ++ collapseAux false m'' from rfl,
                stripWS_word [e] _ (by simp) (by simpa using he),
                stripRight_append [e] _ (by simpa using he)]
            rw [h5, ← h6, ihm]
            rw [splitWords_cons_nonspace _ he]
            simp [joinSp]

/-- `str.strip` of the whitespace-collapsed string is the single-space join
of the whitespace-separated words: the semantic bridge between the two
regex substitutions of the source and the word-level reading of the spec. -/
theorem stripWS_collapse (l : List Char) :
    stripWS (collapseWS l) = joinSp (splitWords l) :=
  stripWS_collapse_fuel l.length l (Nat.le_refl _)

theorem toLower_toLower (c : Char) : c.toLower.toLower = c.toLower := by
  by_cases h : 65 ≤ c.toNat ∧ c.toNat ≤ 90
  · have h1 : c.toLower = Char.ofNat (c.toNat + 32) := by
      unfold Char.toLower
      rw [if_pos h]
    obtain ⟨ha, hb⟩ := h
    rw [h1]
    generalize c.toNat = m at ha hb ⊢
    interval_cases m <;> decide
  · have h1 : c.toLower = c := by
      unfold Char.toLower
      rw [if_neg h]
    simp [h1]

theorem swa_nil_ne (acc : List Char) (h : acc ≠ []) :
    splitWordsAux [] acc = [acc.reverse] := by
  simp [splitWordsAux, h]

theorem swa_space_nil (c : Char) (l : List Char) (hc : pyIsSpace c = true) :
    splitWordsAux (c :: l) [] = splitWordsAux l [] := by
  simp [splitWordsAux, hc]

theorem swa_space_ne (c : Char) (l acc : List Char) (hc : pyIsSpace c = true)
    (h : acc ≠ []) :
    splitWordsAux (c :: l) acc = acc.reverse :: splitWordsAux l [] := by
  simp [splitWordsAux, hc, h]

theorem swa_nonspace (c : Char) (l acc : List Char) (hc : pyIsSpace c = false) :
    splitWordsAux (c :: l) acc = splitWordsAux l (c :: acc) := by
  simp [splitWordsAux, hc]

theorem splitWordsAux_forall (l : List Char) :
    ∀ acc : List Char, (∀ c ∈ acc, pyIsSpace c = false) →
      ∀ w ∈ splitWordsAux l acc, w ≠ [] ∧ ∀ c ∈ w, pyIsSpace c = false := by
  induction l with
  | nil =>
    intro acc hacc w hw
    by_cases ha : acc = []
    · rw [ha] at hw
      simp [splitWordsAux] at hw
    · rw [swa_nil_ne acc ha, List.mem_singleton] at hw
      subst hw
      exact ⟨by simpa using ha, fun c hc => hacc c (by simpa using hc)⟩
  | cons c t ih =>
    intro acc hacc w hw
    by_cases hc : pyIsSpace c = true
    · by_cases ha : acc = []
      · rw [ha, swa_space_nil c t hc] at hw
        exact ih [] (by simp) w hw
      · rw [swa_space_ne c t acc hc ha, List.mem_cons] at hw
        rcases hw with hw | hw
        · subst hw
          exact ⟨by simpa using ha, fun d hd => hacc d (by simpa using hd)⟩
        · exact ih [] (by simp) w hw
    · have hc' : pyIsSpace c = false := by simpa using hc
      rw [swa_nonspace c t acc hc'] at hw
      refine ih (c :: acc) ?_ w hw
      intro d hd
      rcases List.mem_cons.mp hd with h | h
      · exact h ▸ hc'
      · exact hacc d h

theorem splitWords_forall (l : List Char) :
    ∀ w ∈ splitWords l, w ≠ [] ∧ ∀ c ∈ w, pyIsSpace c = false :=
  splitWordsAux_forall l [] (by simp)

theorem splitWordsAux_subset (l : List Char) :
    ∀ acc : List Char, ∀ w ∈ splitWordsAux l acc, ∀ c ∈ w, c ∈ acc ∨ c ∈ l := by
  induction l with
  | nil =>
    intro acc w hw c hc
    by_cases ha : acc = []
    · rw [ha] at hw
      simp [splitWordsAux] at hw
    · rw [swa_nil_ne acc ha, List.mem_singleton] at hw
      subst hw
      exact Or.inl (by simpa using hc)
  | cons a t ih =>
    intro acc w hw c hc
    by_cases hsp : pyIsSpace a = true
    · by_cases ha : acc = []
      · rw [ha, swa_space_nil a t hsp] at hw
        rcases ih [] w hw c hc with h | h
        · simp at h
        · exact Or.inr (by simp [h])
      · rw [swa_space_ne a t acc hsp ha, List.mem_cons] at hw
        rcases hw with hw | hw
        · subst hw
          exact Or.inl (by simpa using hc)
        · rcases ih [] w hw c hc with h | h
          · simp at h
          · exact Or.inr (by simp [h])
    · have hsp' : pyIsSpace a = false := by simpa using hsp
      rw [swa_nonspace a t acc hsp'] at hw
      rcases ih (a :: acc) w hw c hc with h | h
      · rcases List.mem_cons.mp h with h' | h'
        · exact Or.inr (by simp [h'])
        · exact Or.inl h'
      · exact Or.inr (by simp [h])

theorem mem_splitWords_subset (l : List Char) :
    ∀ w ∈ splitWords l, ∀ c ∈ w, c ∈ l := by
  intro w hw c hc
  rcases splitWordsAux_subset l [] w hw c hc with h | h
  · simp at h
  · exact h

theorem splitWords_joinSp :
    ∀ ws : List (List Char),
      (∀ w ∈ ws, w ≠ [] ∧ ∀ c ∈ w, pyIsSpace c = false) →
      splitWords (joinSp ws) = ws := by
  intro ws
  induction ws with
  | nil => intro _; rfl
  | cons w rest ih =>
    intro h
    obtain ⟨hw, hwsp⟩ := h w (by simp)
    cases w with
    | nil => exact absurd rfl hw
    | cons c w' =>
      have hc : pyIsSpace c = false := hwsp c (by simp)
      have hw' : ∀ d ∈ w', pyIsSpace d = false := fun d hd => hwsp d (by simp [hd])
      cases rest with
      | nil =>
        show splitWords (c :: w') = [c :: w']
        rw [splitWords_cons_nonspace _ hc,
          List.takeWhile_eq_self_iff.mpr (by intro d hd; simp [hw' d hd]),
          List.dropWhile_eq_nil_iff.mpr (by intro d hd; simp [hw' d hd])]
        rfl
      | cons x rest' =>
        show splitWords ((c :: w') ++ ' ' :: joinSp (x :: rest')) = _
        rw [List.cons_append, splitWords_cons_nonspace _ hc,
          List.takeWhile_append_of_pos (by intro d hd; simp [hw' d hd]),
          List.dropWhile_append_of_pos (by intro d hd; simp [hw' d hd]),
          List.takeWhile_cons_of_neg (by decide),
          List.dropWhile_cons_of_neg (by decide),
          List.append_nil,
          splitWords_cons_space _ (by decide),
          ih (fun v hv => h v (by simp [hv]))]

theorem mem_joinSp :
    ∀ (ws : List (List Char)) (c : Char), c ∈ joinSp ws →
      (∃ w ∈ ws, c ∈ w) ∨ c = ' ' := by
  intro ws
  induction ws with
  | nil => intro c hc; simp [joinSp] at hc
  | cons w rest ih =>
    intro c hc
    cases rest with
    | nil => exact Or.inl ⟨w, by simp, by simpa [joinSp] using hc⟩
    | cons x rest' =>
      rw [show joinSp (w :: x :: rest') = w ++ ' ' :: joinSp (x :: rest') from rfl] at hc
      rcases List.mem_append.mp hc with h | h
      · exact Or.inl ⟨w, by simp, h⟩
      · rcases List.mem_cons.mp h with h' | h'
        · exact Or.inr h'
        · rcases ih c h' with ⟨v, hv, hcv⟩ | h''
          · exact Or.inl ⟨v, by simp [hv], hcv⟩
          · exact Or.inr h''

theorem map_eq_self_of (f : Char → Char) (l : List Char)
    (h : ∀ c ∈ l, f c = c) : l.map f = l := by
  induction l with
  | nil => rfl
  | cons c t ih => simp [h c (by simp), ih (fun d hd => h d (by simp [hd]))]

/-- `normCore` computed as the single-space join of the whitespace-separated
words of the lower-cased, punctuation-stripped input. -/
theorem normCore_eq_joinSp (l : List Char) :
    normCore l = joinSp (splitWords (List.filter keepChar (l.map Char.toLower))) := by
  unfold normCore
  by_cases hl : l = []
  · subst hl; rfl
  · rw [if_neg hl, show collapseWS (List.filter keepChar (l.map Char.toLower)) =
      collapseWS (List.filter keepChar (l.map Char.toLower)) from rfl]
    exact stripWS_collapse _

theorem normCore_idem (l : List Char) : normCore (normCore l) = normCore l := by
  rw [normCore_eq_joinSp l]
  have hforall := splitWords_forall (List.filter keepChar (l.map Char.toLower))
  have hchars : ∀ c ∈ joinSp (splitWords (List.filter keepChar (l.map Char.toLower))),
      Char.toLower c = c ∧ keepChar c = true := by
    intro c hc
    rcases mem_joinSp _ c hc with ⟨w, hw, hcw⟩ | hsp
    · have hmem : c ∈ List.filter keepChar (l.map Char.toLower) :=
        mem_splitWords_subset _ w hw c hcw
      have hkeep : keepChar c = true := List.of_mem_filter hmem
      have hmap : c ∈ l.map Char.toLower := List.mem_of_mem_filter hmem
      obtain ⟨d, _, rfl⟩ := List.mem_map.mp hmap
      exact ⟨toLower_toLower d, hkeep⟩
    · subst hsp
      exact ⟨by decide, by decide⟩
  rw [normCore_eq_joinSp (joinSp (splitWords (List.filter keepChar (l.map Char.toLower))))]
  rw [map_eq_self_of _ _ (fun c hc => (hchars c hc).1)]
  rw [List.filter_eq_self.mpr (fun c hc => (hchars c hc).2)]
  rw [splitWords_joinSp _ hforall]

/- ------------------------------------------------------------------ -/
/- Lemmas about `deduplicate_articles`.                                -/
/- ------------------------------------------------------------------ -/

theorem dedupGo_partition :
    ∀ (arts : List Article) (exT exU seenT seenU : List String),
      (dedupGo exT exU arts seenT seenU).1.Sublist arts ∧
      (dedupGo exT exU arts seenT seenU).1.length +
        (dedupGo exT exU arts seenT seenU).2 = arts.length := by
  intro arts
  induction arts with
  | nil => intro exT exU seenT seenU; simp [dedupGo]
  | cons a rest ih =>
    intro exT exU seenT seenU
    simp only [dedupGo]
    split
    · obtain ⟨h1, h2⟩ := ih exT exU seenT seenU
      refine ⟨List.Sublist.cons a h1, ?_⟩
      simpa using by omega
    · obtain ⟨h1, h2⟩ := ih exT exU
        (normalize_title a.title :: seenT) (a.url :: seenU)
      refine ⟨List.Sublist.cons₂ a h1, ?_⟩
      simpa using by omega

theorem dedupGo_url_not_seen :
    ∀ (arts : List Article) (exT exU seenT seenU : List String),
      ∀ a ∈ (dedupGo exT exU arts seenT seenU).1, a.url ∉ seenU := by
  intro arts
  induction arts with
  | nil => intro exT exU seenT seenU a ha; simp [dedupGo] at ha
  | cons b rest ih =>
    intro exT exU seenT seenU a ha
    simp only [dedupGo] at ha
    by_cases hcond : (exU.contains b.url || seenU.contains b.url
        || exT.contains (normalize_title b.title)
        || seenT.contains (normalize_title b.title)) = true
    · rw [if_pos hcond] at ha
      exact ih exT exU seenT seenU a (by simpa using ha)
    · rw [if_neg hcond] at ha
      have ha' : a = b ∨ a ∈ (dedupGo exT exU rest
          (normalize_title b.title :: seenT) (b.url :: seenU)).1 := by
        simpa using ha
      rcases ha' with h | h
      · subst h
        intro hmem
        apply hcond
        simp
        exact Or.inl (Or.inl (Or.inr hmem))
      · have := ih exT exU (normalize_title b.title :: seenT) (b.url :: seenU) a h
        intro hmem
        exact this (by simp [hmem])

theorem dedupGo_pairwise_urls :
    ∀ (arts : List Article) (exT exU seenT seenU : List String),
      List.Pairwise (fun x y : Article => x.url ≠ y.url)
        (dedupGo exT exU arts seenT seenU).1 := by
  intro arts
  induction arts with
  | nil => intro exT exU seenT seenU; simp [dedupGo]
  | cons b rest ih =>
    intro exT exU seenT seenU
    simp only [dedupGo]
    split
    · exact ih exT exU seenT seenU
    · refine List.Pairwise.cons ?_ (ih exT exU _ _)
      intro a ha
      have := dedupGo_url_not_seen rest exT exU
        (normalize_title b.title :: seenT) (b.url :: seenU) a ha
      intro heq
      exact this (by simp [← heq])

/- ------------------------------------------------------------------ -/
/- Lemmas about `remove_duplicates`.                                   -/
/- ------------------------------------------------------------------ -/

theorem removeDupGo_facts :
    ∀ (items : List RssItem) (seen : List (String × RssItem)) (d : Nat),
      (removeDupGo items seen d).1.length + (removeDupGo items seen d).2 =
        seen.length + d + (items.filter rssGuard).length ∧
      ((∀ p ∈ seen, rssGuard p.2 = true) →
        ∀ it ∈ (removeDupGo items seen d).1, rssGuard it = true) := by
  intro items
  induction items with
  | nil =>
    intro seen d
    constructor
    · simp [removeDupGo]
    · intro hseen it hit
      simp only [removeDupGo] at hit
      obtain ⟨p, hp, hpe⟩ := List.mem_map.mp hit
      exact hpe ▸ hseen p hp
  | cons x rest ih =>
    intro seen d
    by_cases hg : rssGuard x = true
    · by_cases hk : ((seen.map Prod.fst).contains (rssKey x)) = true
      · have he : removeDupGo (x :: rest) seen d = removeDupGo rest seen (d + 1) := by
          simp only [removeDupGo]
          rw [if_pos hg, if_pos hk]
        constructor
        · rw [he, (ih seen (d + 1)).1, List.filter_cons_of_pos hg]
          simp
          omega
        · intro hseen it hit
          rw [he] at hit
          exact (ih seen (d + 1)).2 hseen it hit
      · have he : removeDupGo (x :: rest) seen d =
            removeDupGo rest (seen ++ [(rssKey x, x)]) d := by
          simp only [removeDupGo]
          rw [if_pos hg, if_neg hk]
        constructor
        · rw [he, (ih (seen ++ [(rssKey x, x)]) d).1, List.filter_cons_of_pos hg]
          simp
          omega
        · intro hseen it hit
          rw [he] at hit
          refine (ih (seen ++ [(rssKey x, x)]) d).2 ?_ it hit
          intro p hp
          rcases List.mem_append.mp hp with h | h
          · exact hseen p h
          · rcases List.mem_singleton.mp h with rfl
            exact hg
    · have hg' : rssGuard x = false := by simpa using hg
      have he : removeDupGo (x :: rest) seen d = removeDupGo rest seen d := by
        simp only [removeDupGo]
        rw [if_neg hg]
      constructor
      · rw [he, (ih seen d).1, List.filter_cons_of_neg (by simp [hg'])]
      · intro hseen it hit
        rw [he] at hit
        exact (ih seen d).2 hseen it hit

theorem filter_length_lt {α : Type} (p : α → Bool) (l : List α) (x : α)
    (hx : x ∈ l) (hpx : p x = false) :
    (l.filter p).length < l.length := by
  induction l with
  | nil => simp at hx
  | cons c t ih =>
    rcases List.mem_cons.mp hx with h | h
    · subst h
      rw [List.filter_cons_of_neg (by simp [hpx])]
      have := List.length_filter_le p t
      simpa using Nat.lt_succ_of_le this
    · by_cases hc : p c = true
      · rw [List.filter_cons_of_pos hc]
        simpa using ih h
      · rw [List.filter_cons_of_neg (by simpa using hc)]
        exact Nat.lt_succ_of_lt (ih h)

/- ------------------------------------------------------------------ -/
/- Claim theorems.                                                     -/
/- ------------------------------------------------------------------ -/

/-- Claim C1, counterexample: two empty-title articles with distinct fresh
URLs do NOT both survive `deduplicate_articles` — the empty normalized title
of the first is recorded in `seen_titles`, so the second collides on it. -/
theorem dedup_empty_title_cex :
    (deduplicate_articles freshFiles DbConn.down [exEmptyX, exEmptyY]).1 ≠
      [exEmptyX, exEmptyY] := by decide

/-- Claim C1, amended: for a batch of two empty-title articles whose keys are
absent from the Existing-Key Index, only the first survives; the second is
counted as a duplicate because empty normalized titles DO collide within a
batch. -/
theorem dedup_empty_title_amended (fs : List FileRead) (db : DbConn)
    (a b : Article) (ha : a.title = "") (hb : b.title = "")
    (hU : (load_existing_keys fs db).2.contains a.url = false)
    (hT : (load_existing_keys fs db).1.contains (normalize_title "") = false) :
    deduplicate_articles fs db [a, b] = ([a], 1) := by
  simp only [deduplicate_articles, dedupGo, ha, hb, hU, hT]
  simp

/-- Witness for the amended claim C1 at the spec's own scenario input. -/
theorem dedup_empty_title_amended_witness :
    deduplicate_articles freshFiles DbConn.down [exEmptyX, exEmptyY] =
      ([exEmptyX], 1) :=
  dedup_empty_title_amended freshFiles DbConn.down exEmptyX exEmptyY
    rfl rfl (by decide) (by decide)

/-- Claim C2: the unique list never contains two articles with the same URL
(so of two same-URL articles in one batch at most one survives), and for a
fresh two-article batch sharing a non-empty URL exactly the first survives
with duplicate count 1. -/
theorem dedup_same_url_first_wins :
    (∀ (fs : List FileRead) (db : DbConn) (arts : List Article),
      List.Pairwise (fun x y : Article => x.url ≠ y.url)
        (deduplicate_articles fs db arts).1) ∧
    (∀ (fs : List FileRead) (db : DbConn) (a b : Article),
      a.url = b.url → a.url ≠ "" →
      (load_existing_keys fs db).2.contains a.url = false →
      (load_existing_keys fs db).1.contains (normalize_title a.title) = false →
      deduplicate_articles fs db [a, b] = ([a], 1)) := by
  constructor
  · intro fs db arts
    exact dedupGo_pairwise_urls arts _ _ [] []
  · intro fs db a b hurl _hne hU hT
    simp only [deduplicate_articles, dedupGo, hU, hT]
    simp [← hurl]

/-- Witness for claim C2 at the spec's scenario batch. -/
theorem dedup_same_url_first_wins_witness :
    deduplicate_articles freshFiles DbConn.down [exFedA, exFedB] =
      ([exFedA], 1) :=
  dedup_same_url_first_wins.2 freshFiles DbConn.down exFedA exFedB
    rfl (by decide) (by decide) (by decide)

/-- Claim C3 (code bug): with the relational store unreachable,
`save_articles_simple` raises instead of returning zero counts — the
`with get_db_connection() as conn:` applies the context-manager protocol to
`None` before the `if not conn` guard can run, and the exception propagates,
skipping the cache and mirror writes. -/
theorem persist_unreachable_db_raises :
    save_articles_simple PgState.unreachable ⟨true, []⟩ (MongoState.ok [])
      [exFedA] =
      Except.error "TypeError: NoneType is not a context manager" := by
  rfl

/-- Claim C4, counterexample: persisting the same article twice does not
report mirror counts 1 then 1 — the second bulk upsert matches but modifies
nothing, so `upserted_count + modified_count` is 0. -/
theorem persist_twice_mirror_cex :
    (persistTwice exFedA).map
        (fun p => (p.1.mongo_count, p.2.1.mongo_count)) ≠ some (1, 1) := by
  decide

/-- Claim C4, amended: persisting the same single article twice from empty
reachable stores gives relational counts 1 then 0, cache counts 1 then 1 with
the cache file holding two copies, and mirror counts 1 then 0 (an upsert of
an identical document reports no write). -/
theorem persist_twice_amended (a : Article) :
    persistTwice a = some (⟨1, 1, 1, [a]⟩, ⟨0, 1, 0, []⟩,
      PgState.ok [a.url], ⟨true, [a, a]⟩, MongoState.ok [(a.url, a)]) := by
  simp [persistTwice, save_articles_simple, insert_articles_simple, pgInsertFold,
    save_articles_to_json_simple, save_articles_to_mongo, mongoBulk, mongoUpsertOne,
    List.lookup, Bind.bind, Except.bind]

/-- Witness for the amended claim C4 at a concrete article. -/
theorem persist_twice_amended_witness :
    persistTwice exEmptyX = some (⟨1, 1, 1, [exEmptyX]⟩, ⟨0, 1, 0, []⟩,
      PgState.ok [exEmptyX.url], ⟨true, [exEmptyX, exEmptyX]⟩,
      MongoState.ok [(exEmptyX.url, exEmptyX)]) :=
  persist_twice_amended exEmptyX

/-- Claim C5, counterexample: `normalize_title` keeps the underscore (Python's
regex class `\w` includes it), so it differs from the claimed
remove-everything-not-alphanumeric-or-whitespace algorithm at `"_"`. -/
theorem normalize_title_underscore_cex :
    normalize_title "_" ≠ normalize_title_claimed "_" := by decide

/-- Claim C5, amended: `normalize_title` lower-cases the input, removes every
character that is not alphanumeric, underscore, or whitespace, collapses each
whitespace run to a single space, and trims — i.e. it joins the
whitespace-separated words of the lower-cased, `\w`-filtered input with
single spaces; empty input yields the empty string. -/
theorem normalize_title_eq_amended (s : String) :
    normalize_title s = normalize_title_amended s :=
  congrArg String.mk (normCore_eq_joinSp s.data)

/-- Witness for the amended claim C5 at a concrete input containing an
underscore, punctuation and repeated whitespace. -/
theorem normalize_title_eq_amended_witness :
    normalize_title "  Fed_cuts   RATES!! " =
      normalize_title_amended "  Fed_cuts   RATES!! " :=
  normalize_title_eq_amended "  Fed_cuts   RATES!! "

/-- Claim C6: `normalize_title` is idempotent. -/
theorem normalize_title_idem (s : String) :
    normalize_title (normalize_title s) = normalize_title s :=
  congrArg String.mk (normCore_idem s.data)

/-- Witness for claim C6 at a concrete input. -/
theorem normalize_title_idem_witness :
    normalize_title (normalize_title "  Fed   Cuts RATES!! ") =
      normalize_title "  Fed   Cuts RATES!! " :=
  normalize_title_idem "  Fed   Cuts RATES!! "

/-- Claim C7: loading the Existing-Key Index degrades instead of failing —
an unreachable database contributes empty key sets, leaving exactly the
file-cache keys, and a corrupt or missing cache file contributes nothing
while the remaining files are still consulted. -/
theorem existing_keys_degrade :
    (get_db_existing_articles DbConn.down = ([], [])) ∧
    (∀ fs : List FileRead,
      load_existing_keys fs DbConn.down = get_all_existing_articles fs) ∧
    (∀ pre post : List FileRead,
      get_all_existing_articles (pre ++ FileRead.corrupt :: post) =
        get_all_existing_articles (pre ++ post)) ∧
    (∀ pre post : List FileRead,
      get_all_existing_articles (pre ++ FileRead.missing :: post) =
        get_all_existing_articles (pre ++ post)) := by
  refine ⟨rfl, ?_, ?_, ?_⟩
  · intro fs
    simp [load_existing_keys, get_db_existing_articles]
  · intro pre post
    simp [get_all_existing_articles, List.foldl_append, fileKeys]
  · intro pre post
    simp [get_all_existing_articles, List.foldl_append, fileKeys]

/-- Witness for claim C7: a corrupt file in the middle of the cache list
contributes nothing while the good files around it are still consulted. -/
theorem existing_keys_degrade_witness :
    get_all_existing_articles
        ([FileRead.good [exFedA]] ++ FileRead.corrupt :: [FileRead.good [exEmptyX]]) =
      get_all_existing_articles ([FileRead.good [exFedA]] ++ [FileRead.good [exEmptyX]]) :=
  existing_keys_degrade.2.2.1 [FileRead.good [exFedA]] [FileRead.good [exEmptyX]]

/-- Claim C8, counterexample: the status endpoint of a never-started family
does not report `running = false` (it reports Python `None`, serialized as
null, because `None and ...` short-circuits to `None`) and exposes no
`lastRunAt` field at all. -/
theorem auto_status_cex :
    (api_auto_status initialSched 0 0).lookup "api_running" ≠
        some (PyVal.pybool false) ∧
      (api_auto_status initialSched 0 0).lookup "lastRunAt" = none ∧
      (api_auto_status initialSched 0 0).lookup "last_run_at" = none := by
  decide

/-- Claim C8, amended: a start request is honored only when no live thread
exists (starting an already-running family returns false and leaves the state
untouched); a stopped or never-started family transitions to running; and the
status of a never-started family reports `api_running` as `None`/null — not
the boolean false — and carries no `lastRunAt` key. -/
theorem auto_start_status_amended :
    (∀ s : SchedState, s.apiThread = some true →
      start_auto_api s = (false, s)) ∧
    (∀ s : SchedState, s.apiThread.getD false = false →
      (start_auto_api s).1 = true ∧
      (start_auto_api s).2.apiThread = some true ∧
      (start_auto_api s).2.apiStopSet = false) ∧
    (∀ t1 t2 : Nat,
      (api_auto_status initialSched t1 t2).lookup "api_running" =
          some PyVal.pynone ∧
        (api_auto_status initialSched t1 t2).lookup "lastRunAt" = none) := by
  refine ⟨?_, ?_, ?_⟩
  · intro s h
    simp [start_auto_api, h]
  · intro s h
    simp [start_auto_api, h]
  · intro t1 t2
    constructor <;> rfl

/-- Witness for the amended claim C8: starting an already-running family is a
no-op returning false. -/
theorem auto_start_status_amended_witness :
    start_auto_api { initialSched with apiThread := some true } =
      (false, { initialSched with apiThread := some true }) :=
  auto_start_status_amended.1 { initialSched with apiThread := some true } rfl

/-- Claim C9: `deduplicate_articles` partitions its input — the unique list
is a subsequence of the input (kept articles unmodified, in input order) and
its length plus the duplicate count equals the input length, for every state
of the Existing-Key Index. -/
theorem dedup_partitions (fs : List FileRead) (db : DbConn)
    (arts : List Article) :
    (deduplicate_articles fs db arts).1.Sublist arts ∧
    (deduplicate_articles fs db arts).1.length +
      (deduplicate_articles fs db arts).2 = arts.length :=
  dedupGo_partition arts _ _ [] []

/-- Witness for claim C9 at a concrete batch with one duplicate. -/
theorem dedup_partitions_witness :
    (deduplicate_articles freshFiles DbConn.down [exFedA, exFedB, exEmptyX]).1.Sublist
        [exFedA, exFedB, exEmptyX] ∧
      (deduplicate_articles freshFiles DbConn.down [exFedA, exFedB, exEmptyX]).1.length +
        (deduplicate_articles freshFiles DbConn.down [exFedA, exFedB, exEmptyX]).2 =
        ([exFedA, exFedB, exEmptyX] : List Article).length :=
  dedup_partitions freshFiles DbConn.down [exFedA, exFedB, exEmptyX]

/-- Claim C10: the RSS deduplicator silently discards every item whose
stripped title or link is empty — every returned item passes the guard, the
kept-plus-duplicate count equals the number of guard-passing input items, and
it is strictly below the input length whenever some item fails the guard. -/
theorem rss_skips_empty_items :
    (∀ (items : List RssItem), ∀ it ∈ (remove_duplicates items).1,
      rssGuard it = true) ∧
    (∀ items : List RssItem,
      (remove_duplicates items).1.length + (remove_duplicates items).2 =
        (items.filter rssGuard).length) ∧
    (∀ (items : List RssItem) (it : RssItem), it ∈ items →
      rssGuard it = false →
      (remove_duplicates items).1.length + (remove_duplicates items).2 <
        items.length) := by
  refine ⟨?_, ?_, ?_⟩
  · intro items it hit
    exact (removeDupGo_facts items [] 0).2 (by simp) it hit
  · intro items
    have := (removeDupGo_facts items [] 0).1
    simpa using this
  · intro items it hit hg
    have h1 : (remove_duplicates items).1.length + (remove_duplicates items).2 =
        (items.filter rssGuard).length := by
      have := (removeDupGo_facts items [] 0).1
      simpa using this
    rw [h1]
    exact filter_length_lt rssGuard items it hit hg

/-- Witness for claim C10: a single item with an empty title is dropped
without being counted, so kept + duplicates falls short of the input size. -/
theorem rss_skips_empty_items_witness :
    (remove_duplicates [exRssNoTitle]).1.length +
      (remove_duplicates [exRssNoTitle]).2 <
      ([exRssNoTitle] : List RssItem).length :=
  rss_skips_empty_items.2.2 [exRssNoTitle] exRssNoTitle (by decide) (by decide)

end News
